import Mathlib

/-!
# Verification of the stream-locate-converter line index

Shallow embedding of `src/location.rs` and `src/stream.rs`.

The byte source (`io::Read`) is embedded as the list of bytes remaining in
the reader; a `read` into a buffer of size `bufferSize` deterministically
yields `min bufferSize remaining` bytes, which is how `Read` behaves for
in-memory slices.  `usize` is embedded as `Nat` (all quantities here are
small and never overflow in the source's intended use).  `io::Result` is
embedded as `Except String`, with the same error message strings the source
builds.  The scratch buffer `buffer: Vec<u8>` only matters through its
length, so the state keeps `bufferSize` alone.
-/

namespace StreamLocate

/-! ## `src/location.rs` -/

/-- `Offset` is a transparent newtype over `usize`; embedded as `Nat`. -/
abbrev Offset := Nat

/-- `line_column::ZeroBased`: zero-based (line, column) location. -/
structure ZeroBased where
  line : Nat
  column : Nat
deriving DecidableEq, Repr

/-- `ZeroBased::raw`. -/
def ZeroBased.raw (p : ZeroBased) : Nat × Nat :=
  (p.line, p.column)

/-- `std::num::NonZeroUsize`: a positive machine integer. -/
abbrev NonZeroUsize := {n : Nat // 0 < n}

/-- `NonZeroUsize::new`: `some` exactly on positive input. -/
def NonZeroUsize.new (n : Nat) : Option NonZeroUsize :=
  if h : 0 < n then some ⟨n, h⟩ else none

/-- `line_column::OneBased`: one-based (line, column) location, both
components strictly positive by construction. -/
structure OneBased where
  line : NonZeroUsize
  column : NonZeroUsize
deriving DecidableEq

/-- `ZeroBased::one_based`: `(line + 1, column + 1)`.  The source uses
`NonZeroUsize::new_unchecked`, which is sound because `_ + 1 > 0`; the
embedding supplies that proof. -/
def ZeroBased.one_based (p : ZeroBased) : OneBased :=
  { line := ⟨p.line + 1, Nat.succ_pos _⟩
    column := ⟨p.column + 1, Nat.succ_pos _⟩ }

/-- `OneBased::new`: fails (returns `none`) when `line` or `column` is 0. -/
def OneBased.new (line column : Nat) : Option OneBased := do
  let l ← NonZeroUsize.new line
  let c ← NonZeroUsize.new column
  pure ⟨l, c⟩

/-- `OneBased::raw`. -/
def OneBased.raw (p : OneBased) : Nat × Nat :=
  (p.line.val, p.column.val)

/-- `OneBased::zero_based`. -/
def OneBased.zero_based (p : OneBased) : ZeroBased :=
  { line := p.line.val - 1, column := p.column.val - 1 }

/-! ## `src/stream.rs` -/

/-- The state of `Stream<R>`: the bytes not yet consumed from the reader,
the discovered line-start table, the scan cursor, and the read-buffer
length (the scratch buffer's contents never matter). -/
structure Stream where
  reader : List Nat
  base : Nat
  lines : List Nat
  next_offset : Nat
  current_line : Nat
  bufferSize : Nat
deriving DecidableEq, Repr

/-- `Stream::new`. -/
def Stream.new (reader : List Nat) (buffer_size : Nat) : Stream :=
  { reader := reader
    base := 0
    lines := [0]
    next_offset := 0
    current_line := 0
    bufferSize := buffer_size }

/-- The line-start offsets contributed by one chunk of bytes: for each
line-feed byte (value 10) at absolute offset `p`, the entry `p + 1`.
`base` is the absolute offset of the chunk's first byte. -/
def nlOffsets (base : Nat) : List Nat → List Nat
  | [] => []
  | b :: rest =>
    if b = 10 then (base + 1) :: nlOffsets (base + 1) rest
    else nlOffsets (base + 1) rest

/-- `Stream::forward`: read up to `bufferSize` bytes, append a line start
for every line feed among them, advance the cursor, return the byte count. -/
def Stream.forward (s : Stream) : Nat × Stream :=
  let chunk := s.reader.take s.bufferSize
  let news := nlOffsets s.next_offset chunk
  (chunk.length,
    { reader := s.reader.drop chunk.length
      base := s.base
      lines := s.lines ++ news
      next_offset := s.next_offset + chunk.length
      current_line := s.current_line + news.length
      bufferSize := s.bufferSize })

theorem forward_reader_length (s : Stream) :
    (s.forward).2.reader.length = s.reader.length - (s.forward).1 ∧
      (s.forward).1 ≤ s.reader.length := by
  refine ⟨?_, ?_⟩ <;> simp [Stream.forward]

theorem forward_reader_lt (s : Stream) (h : (s.forward).1 ≠ 0) :
    (s.forward).2.reader.length < s.reader.length := by
  have := forward_reader_length s
  omega

/-- `Stream::drain`: scan until `forward` returns 0. -/
def Stream.drain (s : Stream) : Stream :=
  let p := s.forward
  if p.1 = 0 then p.2 else p.2.drain
termination_by s.reader.length
decreasing_by exact forward_reader_lt s (by assumption)

/-- The loop of `binary_search_between`, on loop variables `start` and
`e` (`end` in the source).  All list accesses are within bounds in every
use below; `getD _ 0` stands for Rust's panicking index. -/
def bsbLoop (xs : List Nat) (x start e : Nat) : Option Nat :=
  if start < e then
    if start = e - 1 ∧ xs.getD start 0 ≤ x ∧ x < xs.getD e 0 then
      some start
    else
      let mid := start + (e - start) / 2
      let y := xs.getD mid 0
      if x = y then some mid
      else if x < y then bsbLoop xs x start mid
      else if start = mid then none
      else bsbLoop xs x mid e
  else none
termination_by e - start
decreasing_by all_goals omega

/-- `binary_search_between`: index of the half-open interval of `xs`
containing `x`, or `none` when undetermined. -/
def binary_search_between (xs : List Nat) (x : Nat) : Option Nat :=
  if xs.isEmpty then none
  else if x = 0 then some 0
  else bsbLoop xs x 0 (xs.length - 1)

/-- Error message of `offset_of` (built with `format!` in the source). -/
def invalidLineMsg (line col : Nat) : String :=
  "Invalid line index: (" ++ toString line ++ ", " ++ toString col ++ ")"

/-- `Stream::offset_of` (the argument `ZeroBased` is destructured by
`raw()` at entry, so the embedding takes the two components): loop until
`line` is in the table (then `lines[line] + col`) or the source is
exhausted (then the invalid-line error). -/
def Stream.offset_of (s : Stream) (line col : Nat) : Except String Nat × Stream :=
  match s.lines[line]? with
  | some offset => (Except.ok (offset + col), s)
  | none =>
    let p := s.forward
    if p.1 = 0 then (Except.error (invalidLineMsg line col), p.2)
    else p.2.offset_of line col
termination_by s.reader.length
decreasing_by exact forward_reader_lt s (by assumption)

/-- The loop of `Stream::line_of`, with the carried lower search bound
`beg` (`begin` in the source). -/
def lineOfLoop (s : Stream) (offset beg : Nat) : Except String Nat × Stream :=
  let n := s.lines.length
  match binary_search_between (s.lines.drop beg) offset with
  | some i => (Except.ok i, s)
  | none =>
    let beg' := if 0 < n then n - 1 else beg
    let p := s.forward
    if p.1 = 0 then
      if offset < p.2.next_offset then (Except.ok p.2.current_line, p.2)
      else (Except.error "Invalid offset, exceed EOF", p.2)
    else lineOfLoop p.2 offset beg'
termination_by s.reader.length
decreasing_by exact forward_reader_lt s (by assumption)

/-- `Stream::line_of`. -/
def Stream.line_of (s : Stream) (offset : Offset) : Except String Nat × Stream :=
  lineOfLoop s offset 0

/-- `Stream::line_index`: resolve an offset to a zero-based position.
`lines.get(line).unwrap()` is embedded as `getD _ 0` (the index is in
bounds whenever `line_of` succeeds), and the `usize` subtraction
`offset - line_offset` as truncated `Nat` subtraction (it never
underflows in reachable states, as proved below). -/
def Stream.line_index (s : Stream) (offset : Offset) :
    Except String ZeroBased × Stream :=
  match s.line_of offset with
  | (Except.ok line, s') =>
    let line_offset := s'.lines.getD line 0
    (Except.ok ⟨line, offset - line_offset⟩, s')
  | (Except.error e, s') => (Except.error e, s')

/-! ## List helpers -/

theorem getD_drop_eq (l : List Nat) (n m : Nat) :
    (l.drop n).getD m 0 = l.getD (n + m) 0 := by
  rcases Nat.lt_or_ge (n + m) l.length with h2 | h2
  · rw [List.getD_eq_getElem _ _ h2, List.getD_eq_getElem, List.getElem_drop]
    simp; omega
  · rw [List.getD_eq_default _ _ (by simp; omega), List.getD_eq_default _ _ h2]

theorem sorted_getD_lt {xs : List Nat} (h : List.Sorted (· < ·) xs)
    {i j : Nat} (hij : i < j) (hj : j < xs.length) :
    xs.getD i 0 < xs.getD j 0 := by
  rw [List.getD_eq_getElem _ _ (Nat.lt_trans hij hj), List.getD_eq_getElem _ _ hj]
  exact List.pairwise_iff_getElem.mp h i j _ _ hij

theorem sorted_getD_le {xs : List Nat} (h : List.Sorted (· < ·) xs)
    {i j : Nat} (hij : i ≤ j) (hj : j < xs.length) :
    xs.getD i 0 ≤ xs.getD j 0 := by
  rcases Nat.lt_or_ge i j with hlt | hge
  · exact Nat.le_of_lt (sorted_getD_lt h hlt hj)
  · have : i = j := Nat.le_antisymm hij hge
    exact this ▸ Nat.le_refl _

theorem getD_mem {l : List Nat} {n : Nat} (h : n < l.length) : l.getD n 0 ∈ l := by
  rw [List.getD_eq_getElem _ _ h]; exact List.getElem_mem h

/-! ## Facts about `nlOffsets` -/

theorem nlOffsets_lb (base : Nat) (l : List Nat) :
    ∀ e ∈ nlOffsets base l, base < e := by
  induction l generalizing base with
  | nil => simp [nlOffsets]
  | cons b rest ih =>
    intro e he
    simp only [nlOffsets] at he
    split at he
    · rcases List.mem_cons.mp he with rfl | he
      · omega
      · exact Nat.lt_trans (Nat.lt_succ_self _) (ih (base + 1) e he)
    · exact Nat.lt_trans (Nat.lt_succ_self _) (ih (base + 1) e he)

theorem nlOffsets_ub (base : Nat) (l : List Nat) :
    ∀ e ∈ nlOffsets base l, e ≤ base + l.length := by
  induction l generalizing base with
  | nil => simp [nlOffsets]
  | cons b rest ih =>
    intro e he
    simp only [nlOffsets] at he
    split at he
    · rcases List.mem_cons.mp he with rfl | he
      · simp only [List.length_cons]; omega
      · have := ih (base + 1) e he; simp only [List.length_cons]; omega
    · have := ih (base + 1) e he; simp only [List.length_cons]; omega

theorem nlOffsets_sorted (base : Nat) (l : List Nat) :
    List.Sorted (· < ·) (nlOffsets base l) := by
  induction l generalizing base with
  | nil => simp [nlOffsets]
  | cons b rest ih =>
    simp only [nlOffsets]
    split
    · exact List.Pairwise.cons (fun e he => nlOffsets_lb (base + 1) rest e he)
        (ih (base + 1))
    · exact ih (base + 1)

/-! ## Facts about `forward` -/

theorem forward_lines (s : Stream) :
    (s.forward).2.lines
      = s.lines ++ nlOffsets s.next_offset (s.reader.take s.bufferSize) := rfl

theorem forward_bufferSize (s : Stream) :
    (s.forward).2.bufferSize = s.bufferSize := rfl

theorem forward_total (s : Stream) :
    (s.forward).2.next_offset + (s.forward).2.reader.length
      = s.next_offset + s.reader.length := by
  simp [Stream.forward]
  omega

theorem forward_zero (s : Stream) (h : (s.forward).1 = 0) : (s.forward).2 = s := by
  simp only [Stream.forward] at h ⊢
  rw [List.length_eq_zero] at h
  simp [h, nlOffsets]

theorem forward_zero_reader (s : Stream) (h : (s.forward).1 = 0)
    (hbs : 0 < s.bufferSize) : s.reader = [] := by
  simp only [Stream.forward, List.length_take] at h
  rw [List.length_eq_zero.symm]
  omega

/-! ## The reachable-state invariant -/

/-- The state invariant maintained by every operation: the line-start
table is nonempty, starts with 0, is strictly increasing, stays below the
cursor, and `current_line` indexes its last entry. -/
def Inv (s : Stream) : Prop :=
  s.lines ≠ [] ∧ s.lines.getD 0 0 = 0 ∧ List.Sorted (· < ·) s.lines ∧
    s.current_line = s.lines.length - 1 ∧ ∀ e ∈ s.lines, e ≤ s.next_offset

instance (s : Stream) : Decidable (Inv s) := by
  unfold Inv List.Sorted
  infer_instance

theorem Inv_new (reader : List Nat) (bs : Nat) : Inv (Stream.new reader bs) := by
  refine ⟨by simp [Stream.new], by simp [Stream.new], ?_, by simp [Stream.new],
    by simp [Stream.new]⟩
  simp [Stream.new]

theorem Inv_forward {s : Stream} (h : Inv s) : Inv (s.forward).2 := by
  obtain ⟨h1, h2, h3, h4, h5⟩ := h
  have hlb := nlOffsets_lb s.next_offset (s.reader.take s.bufferSize)
  have hub := nlOffsets_ub s.next_offset (s.reader.take s.bufferSize)
  have hns := nlOffsets_sorted s.next_offset (s.reader.take s.bufferSize)
  refine ⟨?_, ?_, ?_, ?_, ?_⟩
  · rw [forward_lines]
    exact fun hc => h1 (List.append_eq_nil.mp hc).1
  · rw [forward_lines, List.getD_append _ _ _ _ (List.length_pos.mpr h1)]
    exact h2
  · rw [forward_lines]
    refine List.pairwise_append.mpr ⟨h3, hns, ?_⟩
    intro x hx y hy
    exact Nat.lt_of_le_of_lt (h5 x hx) (hlb y hy)
  · show s.current_line + (nlOffsets s.next_offset (s.reader.take s.bufferSize)).length
      = (s.lines ++ nlOffsets s.next_offset (s.reader.take s.bufferSize)).length - 1
    rw [List.length_append, h4]
    have : 0 < s.lines.length := List.length_pos.mpr h1
    omega
  · rw [forward_lines]
    intro e he
    rcases List.mem_append.mp he with he | he
    · have := h5 e he
      show e ≤ s.next_offset + (s.reader.take s.bufferSize).length
      omega
    · have := hub e he
      show e ≤ s.next_offset + (s.reader.take s.bufferSize).length
      omega

/-! ## Correctness of the binary search -/

/-- One-step unfolding of `bsbLoop` with the `let`s substituted, for use
in proofs. -/
theorem bsbLoop_eq (xs : List Nat) (x start e : Nat) :
    bsbLoop xs x start e =
      if start < e then
        if start = e - 1 ∧ xs.getD start 0 ≤ x ∧ x < xs.getD e 0 then
          some start
        else if x = xs.getD (start + (e - start) / 2) 0 then
          some (start + (e - start) / 2)
        else if x < xs.getD (start + (e - start) / 2) 0 then
          bsbLoop xs x start (start + (e - start) / 2)
        else if start = start + (e - start) / 2 then none
        else bsbLoop xs x (start + (e - start) / 2) e
      else none := by
  rw [bsbLoop]

theorem bsbLoop_some_spec :
    ∀ (k : Nat) (xs : List Nat) (x start e i : Nat), e - start ≤ k →
      List.Sorted (· < ·) xs → e < xs.length →
      bsbLoop xs x start e = some i →
      i < e ∧ xs.getD i 0 ≤ x ∧ x < xs.getD e 0 := by
  intro k
  induction k with
  | zero =>
    intro xs x start e i hk hs he hsome
    rw [bsbLoop_eq, if_neg (by omega)] at hsome
    exact absurd hsome (by simp)
  | succ k ih =>
    intro xs x start e i hk hs he hsome
    by_cases h1 : start < e
    · rw [bsbLoop_eq, if_pos h1] at hsome
      by_cases h2 : start = e - 1 ∧ xs.getD start 0 ≤ x ∧ x < xs.getD e 0
      · rw [if_pos h2] at hsome
        obtain rfl := Option.some.inj hsome
        exact ⟨h1, h2.2.1, h2.2.2⟩
      · rw [if_neg h2] at hsome
        by_cases h3 : x = xs.getD (start + (e - start) / 2) 0
        · rw [if_pos h3] at hsome
          obtain rfl := Option.some.inj hsome
          have hmidlt : start + (e - start) / 2 < e := by omega
          exact ⟨hmidlt, Nat.le_of_eq h3.symm,
            h3 ▸ sorted_getD_lt hs hmidlt he⟩
        · rw [if_neg h3] at hsome
          by_cases h4 : x < xs.getD (start + (e - start) / 2) 0
          · rw [if_pos h4] at hsome
            have := ih xs x start (start + (e - start) / 2) i (by omega) hs
              (by omega) hsome
            refine ⟨by omega, this.2.1, ?_⟩
            exact Nat.lt_of_lt_of_le this.2.2
              (sorted_getD_le hs (by omega) he)
          · rw [if_neg h4] at hsome
            by_cases h5 : start = start + (e - start) / 2
            · rw [if_pos h5] at hsome
              exact absurd hsome (by simp)
            · rw [if_neg h5] at hsome
              exact ih xs x (start + (e - start) / 2) e i (by omega) hs he hsome
    · rw [bsbLoop_eq, if_neg h1] at hsome
      exact absurd hsome (by simp)

theorem bsbLoop_none_spec :
    ∀ (k : Nat) (xs : List Nat) (x start e : Nat), e - start ≤ k →
      start ≤ e → e < xs.length → xs.getD start 0 ≤ x →
      (e = xs.length - 1 ∨ x < xs.getD e 0) →
      bsbLoop xs x start e = none →
      xs.getD (xs.length - 1) 0 ≤ x := by
  intro k
  induction k with
  | zero =>
    intro xs x start e hk hse he hsx hde _
    have : start = e := by omega
    subst this
    rcases hde with rfl | hlt
    · exact hsx
    · omega
  | succ k ih =>
    intro xs x start e hk hse he hsx hde hnone
    by_cases h1 : start < e
    · rw [bsbLoop_eq, if_pos h1] at hnone
      by_cases h2 : start = e - 1 ∧ xs.getD start 0 ≤ x ∧ x < xs.getD e 0
      · rw [if_pos h2] at hnone
        exact absurd hnone (by simp)
      · rw [if_neg h2] at hnone
        by_cases h3 : x = xs.getD (start + (e - start) / 2) 0
        · rw [if_pos h3] at hnone
          exact absurd hnone (by simp)
        · rw [if_neg h3] at hnone
          by_cases h4 : x < xs.getD (start + (e - start) / 2) 0
          · rw [if_pos h4] at hnone
            exact ih xs x start (start + (e - start) / 2) (by omega) (by omega)
              (by omega) hsx (Or.inr h4) hnone
          · rw [if_neg h4] at hnone
            by_cases h5 : start = start + (e - start) / 2
            · -- `start = mid` forces `e = start + 1`; the failed base test
              -- then yields `xs[e] <= x`.
              have hbase : ¬ x < xs.getD e 0 := fun hc => h2 ⟨by omega, hsx, hc⟩
              rcases hde with rfl | hlt
              · omega
              · omega
            · rw [if_neg h5] at hnone
              exact ih xs x (start + (e - start) / 2) e (by omega) (by omega)
                he (by omega) hde hnone
    · have : start = e := by omega
      subst this
      rcases hde with rfl | hlt
      · exact hsx
      · omega

theorem bsb_some_spec {xs : List Nat} {x i : Nat} (hs : List.Sorted (· < ·) xs)
    (h : binary_search_between xs x = some i) :
    0 < xs.length ∧ i < xs.length ∧
      ((x = 0 ∧ i = 0) ∨
        (xs.getD i 0 ≤ x ∧ x < xs.getD (xs.length - 1) 0 ∧ i < xs.length - 1)) := by
  rw [binary_search_between] at h
  by_cases hne : xs.isEmpty
  · rw [if_pos hne] at h
    exact absurd h (by simp)
  · rw [if_neg hne] at h
    have hpos : 0 < xs.length := by
      cases xs with
      | nil => simp at hne
      | cons a t => simp
    by_cases hx : x = 0
    · rw [if_pos hx] at h
      obtain rfl := Option.some.inj h
      exact ⟨hpos, hpos, Or.inl ⟨hx, rfl⟩⟩
    · rw [if_neg hx] at h
      have := bsbLoop_some_spec (xs.length - 1) xs x 0 (xs.length - 1) i
        (by omega) hs (by omega) h
      exact ⟨hpos, by omega, Or.inr ⟨this.2.1, this.2.2, this.1⟩⟩

theorem bsb_none_spec {xs : List Nat} {x : Nat} (hne : xs ≠ [])
    (hle : xs.getD 0 0 ≤ x) (h : binary_search_between xs x = none) :
    xs.getD (xs.length - 1) 0 ≤ x ∧ x ≠ 0 := by
  rw [binary_search_between] at h
  rw [if_neg (by simpa using hne)] at h
  by_cases hx : x = 0
  · rw [if_pos hx] at h
    exact absurd h (by simp)
  · rw [if_neg hx] at h
    have hpos : 0 < xs.length := List.length_pos.mpr hne
    exact ⟨bsbLoop_none_spec (xs.length - 1) xs x 0 (xs.length - 1)
      (by omega) (by omega) (by omega) hle (Or.inl rfl) h, hx⟩

/-! ## One-step equations for the loops -/

theorem drain_eq (s : Stream) :
    s.drain = if (s.forward).1 = 0 then (s.forward).2 else (s.forward).2.drain := by
  rw [Stream.drain]

theorem offset_of_hit (s : Stream) (line col off : Nat)
    (h : s.lines[line]? = some off) :
    s.offset_of line col = (Except.ok (off + col), s) := by
  rw [Stream.offset_of, h]

theorem offset_of_miss (s : Stream) (line col : Nat) (h : s.lines[line]? = none) :
    s.offset_of line col =
      if (s.forward).1 = 0 then
        (Except.error (invalidLineMsg line col), (s.forward).2)
      else (s.forward).2.offset_of line col := by
  rw [Stream.offset_of, h]

theorem lineOfLoop_eq_some (s : Stream) (o beg i : Nat)
    (h : binary_search_between (s.lines.drop beg) o = some i) :
    lineOfLoop s o beg = (Except.ok i, s) := by
  rw [lineOfLoop, h]

theorem lineOfLoop_eq_none (s : Stream) (o beg : Nat)
    (h : binary_search_between (s.lines.drop beg) o = none) :
    lineOfLoop s o beg =
      if (s.forward).1 = 0 then
        if o < (s.forward).2.next_offset then
          (Except.ok (s.forward).2.current_line, (s.forward).2)
        else (Except.error "Invalid offset, exceed EOF", (s.forward).2)
      else lineOfLoop (s.forward).2 o
        (if 0 < s.lines.length then s.lines.length - 1 else beg) := by
  rw [lineOfLoop, h]

/-! ## The master lemma for `line_of` -/

theorem lineOfLoop_spec (k : Nat) :
    ∀ (s : Stream) (o beg : Nat), s.reader.length ≤ k →
      Inv s → beg < s.lines.length → s.lines.getD beg 0 ≤ o →
      ∀ res s', lineOfLoop s o beg = (res, s') →
        Inv s' ∧ (∃ t, s'.lines = s.lines ++ t) ∧
        s'.next_offset + s'.reader.length = s.next_offset + s.reader.length ∧
        s'.bufferSize = s.bufferSize ∧
        (∀ l, res = Except.ok l →
          l < s'.lines.length ∧ s'.lines.getD l 0 ≤ o ∧
          (o = 0 ∨ o < s.next_offset + s.reader.length)) ∧
        (∀ msg, res = Except.error msg →
          msg = "Invalid offset, exceed EOF" ∧ 0 < o ∧ s'.next_offset ≤ o ∧
          (0 < s.bufferSize → s'.reader = [])) := by
  induction k using Nat.strong_induction_on with
  | _ k ih =>
    intro s o beg hk hInv hb hle res s' hrun
    have hlenpos : 0 < s.lines.length := by omega
    have hdroplen : (s.lines.drop beg).length = s.lines.length - beg :=
      List.length_drop _ _
    cases hsearch : binary_search_between (s.lines.drop beg) o with
    | some i =>
      rw [lineOfLoop_eq_some s o beg i hsearch] at hrun
      injection hrun with h1 h2
      subst h1; subst h2
      refine ⟨hInv, ⟨[], by simp⟩, rfl, rfl, ?_, ?_⟩
      · intro l hl
        injection hl with hl
        subst hl
        have hds : List.Sorted (· < ·) (s.lines.drop beg) :=
          hInv.2.2.1.sublist (List.drop_sublist beg s.lines)
        obtain ⟨hpos, hilt, hcase⟩ := bsb_some_spec hds hsearch
        rcases hcase with ⟨ho0, rfl⟩ | ⟨h1', h2', h3'⟩
        · exact ⟨hlenpos, by rw [hInv.2.1]; omega, Or.inl ho0⟩
        · have hilt' : i < s.lines.length := by omega
          have hbegi : beg + i < s.lines.length := by omega
          refine ⟨hilt', ?_, Or.inr ?_⟩
          · have := getD_drop_eq s.lines beg i
            have hmono := sorted_getD_le hInv.2.2.1
              (Nat.le_add_left i beg) hbegi
            omega
          · have hlasteq := getD_drop_eq s.lines beg ((s.lines.drop beg).length - 1)
            have : beg + ((s.lines.drop beg).length - 1) = s.lines.length - 1 := by
              omega
            rw [this] at hlasteq
            have hmem : s.lines.getD (s.lines.length - 1) 0 ∈ s.lines :=
              getD_mem (by omega)
            have := hInv.2.2.2.2 _ hmem
            omega
      · intro msg hmsg
        exact absurd hmsg (by simp)
    | none =>
      rw [lineOfLoop_eq_none s o beg hsearch] at hrun
      have hslice_ne : s.lines.drop beg ≠ [] := by
        intro hc
        rw [hc] at hdroplen
        simp at hdroplen
        omega
      have hhd : (s.lines.drop beg).getD 0 0 ≤ o := by
        rw [getD_drop_eq, Nat.add_zero]
        exact hle
      obtain ⟨hlast, ho0⟩ := bsb_none_spec hslice_ne hhd hsearch
      have hlast' : s.lines.getD (s.lines.length - 1) 0 ≤ o := by
        have hlasteq := getD_drop_eq s.lines beg ((s.lines.drop beg).length - 1)
        have : beg + ((s.lines.drop beg).length - 1) = s.lines.length - 1 := by
          omega
        rw [this] at hlasteq
        omega
      by_cases hf : (s.forward).1 = 0
      · rw [if_pos hf] at hrun
        have hs' := forward_zero s hf
        by_cases hlt : o < (s.forward).2.next_offset
        · rw [if_pos hlt] at hrun
          injection hrun with h1 h2
          subst h1; subst h2
          rw [hs'] at hlt ⊢
          refine ⟨hInv, ⟨[], by simp⟩, rfl, rfl, ?_, ?_⟩
          · intro l hl
            injection hl with hl
            subst hl
            rw [hInv.2.2.2.1]
            exact ⟨by omega, hlast', Or.inr (by omega)⟩
          · intro msg hmsg
            exact absurd hmsg (by simp)
        · rw [if_neg hlt] at hrun
          injection hrun with h1 h2
          subst h1; subst h2
          rw [hs'] at hlt ⊢
          refine ⟨hInv, ⟨[], by simp⟩, rfl, rfl, ?_, ?_⟩
          · intro l hl
            exact absurd hl (by simp)
          · intro msg hmsg
            injection hmsg with hmsg
            subst hmsg
            exact ⟨rfl, by omega, by omega,
              fun hbs => forward_zero_reader s hf hbs⟩
      · rw [if_neg hf, if_pos hlenpos] at hrun
        have hlines₁ := forward_lines s
        have hlen₁ : s.lines.length ≤ (s.forward).2.lines.length := by
          rw [hlines₁, List.length_append]
          omega
        have hrl := forward_reader_lt s hf
        have hres := ih (s.forward).2.reader.length (by omega) (s.forward).2 o
          (s.lines.length - 1) (Nat.le_refl _) (Inv_forward hInv)
          (by omega)
          (by
            rw [hlines₁, List.getD_append _ _ _ _ (by omega)]
            exact hlast')
          res s' hrun
        obtain ⟨C1, ⟨t, C2⟩, C3, C4, C5, C6⟩ := hres
        have htot := forward_total s
        have hbuf := forward_bufferSize s
        refine ⟨C1, ⟨nlOffsets s.next_offset (s.reader.take s.bufferSize) ++ t, ?_⟩,
          by omega, by rw [C4, hbuf], ?_, ?_⟩
        · rw [C2, hlines₁, List.append_assoc]
        · intro l hl
          obtain ⟨D1, D2, D3⟩ := C5 l hl
          exact ⟨D1, D2, by omega⟩
        · intro msg hmsg
          obtain ⟨D1, D2, D3, D4⟩ := C6 msg hmsg
          exact ⟨D1, D2, D3, fun hbs => D4 (by rw [hbuf]; exact hbs)⟩

/-! ## Master lemmas for `drain` and `offset_of` -/

theorem drain_spec (k : Nat) :
    ∀ s : Stream, s.reader.length ≤ k →
      (∃ t, (s.drain).lines = s.lines ++ t) ∧ (Inv s → Inv s.drain) := by
  induction k using Nat.strong_induction_on with
  | _ k ih =>
    intro s hk
    rw [drain_eq]
    by_cases hf : (s.forward).1 = 0
    · rw [if_pos hf, forward_zero s hf]
      exact ⟨⟨[], by simp⟩, id⟩
    · rw [if_neg hf]
      have hrl := forward_reader_lt s hf
      obtain ⟨⟨t, ht⟩, hI⟩ := ih (s.forward).2.reader.length (by omega)
        (s.forward).2 (Nat.le_refl _)
      refine ⟨⟨nlOffsets s.next_offset (s.reader.take s.bufferSize) ++ t, ?_⟩, ?_⟩
      · rw [ht, forward_lines, List.append_assoc]
      · intro hInv
        exact hI (Inv_forward hInv)

theorem offset_of_spec (k : Nat) :
    ∀ (s : Stream) (line col : Nat), s.reader.length ≤ k →
      ∀ res s', s.offset_of line col = (res, s') →
        (∃ t, s'.lines = s.lines ++ t) ∧
        (Inv s → Inv s') ∧
        ((res = Except.error (invalidLineMsg line col) ∧
            ¬ line < (s.drain).lines.length) ∨
          (∃ v, res = Except.ok v ∧ line < (s.drain).lines.length)) := by
  induction k using Nat.strong_induction_on with
  | _ k ih =>
    intro s line col hk res s' hrun
    cases h : s.lines[line]? with
    | some off =>
      rw [offset_of_hit s line col off h] at hrun
      injection hrun with h1 h2
      subst h1; subst h2
      have hlt : line < s.lines.length := (List.getElem?_eq_some.mp h).1
      obtain ⟨⟨t, ht⟩, _⟩ := drain_spec s.reader.length s (Nat.le_refl _)
      refine ⟨⟨[], by simp⟩, fun hI => hI, Or.inr ⟨off + col, rfl, ?_⟩⟩
      rw [ht, List.length_append]
      omega
    | none =>
      rw [offset_of_miss s line col h] at hrun
      have hge : s.lines.length ≤ line := by
        simpa using List.getElem?_eq_none_iff.mp h
      by_cases hf : (s.forward).1 = 0
      · rw [if_pos hf] at hrun
        injection hrun with h1 h2
        subst h1; subst h2
        rw [forward_zero s hf]
        rw [drain_eq, if_pos hf, forward_zero s hf]
        exact ⟨⟨[], by simp⟩, fun hI => hI, Or.inl ⟨rfl, by omega⟩⟩
      · rw [if_neg hf] at hrun
        have hrl := forward_reader_lt s hf
        obtain ⟨⟨t, ht⟩, hI, hcase⟩ := ih (s.forward).2.reader.length (by omega)
          (s.forward).2 line col (Nat.le_refl _) res s' hrun
        rw [drain_eq, if_neg hf]
        refine ⟨⟨nlOffsets s.next_offset (s.reader.take s.bufferSize) ++ t, ?_⟩,
          fun hInv => hI (Inv_forward hInv), hcase⟩
        rw [ht, forward_lines, List.append_assoc]

/-! ## Small wrappers used by the claim theorems -/

theorem line_index_snd (s : Stream) (o : Nat) :
    (s.line_index o).2 = (lineOfLoop s o 0).2 := by
  rw [Stream.line_index, Stream.line_of]
  cases hr : lineOfLoop s o 0 with
  | mk r s' => cases r <;> rfl

/-- The table properties the specification states: entry 0 is 0 and the
entries are strictly increasing. -/
def TableOk (s : Stream) : Prop :=
  s.lines.getD 0 0 = 0 ∧ List.Sorted (· < ·) s.lines

theorem TableOk_of_Inv {s : Stream} (h : Inv s) : TableOk s :=
  ⟨h.2.1, h.2.2.1⟩

/-! ## Claim theorems -/

/-- Claim C1 (code_bug evidence): on the source `"a\nb\nc\nd"` with buffer
size 1, resolving byte offset 4 returns position `(0, 4)`, although the
full line-start table is `[0, 2, 4, 6]`, so the line `i` with
`lines[i] ≤ 4 < lines[i+1]` is `i = 2` and the claimed result is `(2, 0)`.
The slice-relative index found by the retried binary search is returned
without adding back the carried lower bound `begin`. -/
theorem claim_C1_code_eval :
    ((Stream.new [97, 10, 98, 10, 99, 10, 100] 1).line_index 4).1
        = Except.ok ⟨0, 4⟩ ∧
      (Stream.new [97, 10, 98, 10, 99, 10, 100] 1).drain.lines = [0, 2, 4, 6] := by
  constructor <;>
    simp [Stream.line_index, Stream.line_of, lineOfLoop, binary_search_between,
      bsbLoop, Stream.forward, Stream.new, nlOffsets, Stream.drain]

/-- Claim C2 (code_bug evidence): on the source `"a\nb\nc\nd"` with buffer
size 1, the valid position `(2, 0)` (line 2 is `"c"`, column 0 is within
it) maps to offset 4, but resolving that offset on the resulting stream
returns `(0, 4)`, not `(2, 0)` — the same slice-relative index bug as C1. -/
theorem claim_C2_code_eval :
    ((Stream.new [97, 10, 98, 10, 99, 10, 100] 1).offset_of 2 0).1
        = Except.ok 4 ∧
      (((Stream.new [97, 10, 98, 10, 99, 10, 100] 1).offset_of 2 0).2.line_index 4).1
        = Except.ok ⟨0, 4⟩ ∧
      (⟨0, 4⟩ : ZeroBased) ≠ ⟨2, 0⟩ := by
  refine ⟨?_, ?_, by decide⟩ <;>
    simp [Stream.line_index, Stream.line_of, lineOfLoop, binary_search_between,
      bsbLoop, Stream.offset_of, Stream.forward, Stream.new, nlOffsets]

/-- Claim C3 (confirmed): for every source, every positive buffer size and
every offset strictly inside the source, `position_of` succeeds and
`offset_of` applied to its result returns the original offset.  (This
holds even though the line component may be wrong, because the column is
computed against the same table entry that `offset_of` adds back.) -/
theorem claim_C3_round_trip (src : List Nat) (bs o : Nat) (hbs : 0 < bs)
    (ho : o < src.length) :
    ∃ (l c : Nat) (s' : Stream),
      (Stream.new src bs).line_index o = (Except.ok ⟨l, c⟩, s') ∧
      (s'.offset_of l c).1 = Except.ok o := by
  cases hr : lineOfLoop (Stream.new src bs) o 0 with
  | mk res s1 =>
    have H := lineOfLoop_spec src.length (Stream.new src bs) o 0
      (by simp [Stream.new]) (Inv_new src bs) (by simp [Stream.new])
      (by simp [Stream.new]) res s1 hr
    cases res with
    | error msg =>
      exfalso
      obtain ⟨_, _, hno, hrd⟩ := H.2.2.2.2.2 msg rfl
      have h1 := H.2.2.1
      have h2 : s1.reader = [] := hrd (by simpa [Stream.new] using hbs)
      rw [h2] at h1
      simp [Stream.new] at h1
      omega
    | ok l =>
      obtain ⟨D1, D2, _⟩ := H.2.2.2.2.1 l rfl
      have hline : (Stream.new src bs).line_index o
          = (Except.ok ⟨l, o - s1.lines.getD l 0⟩, s1) := by
        rw [Stream.line_index, Stream.line_of, hr]
      refine ⟨l, o - s1.lines.getD l 0, s1, hline, ?_⟩
      have hsome : s1.lines[l]? = some (s1.lines.getD l 0) := by
        rw [List.getElem?_eq_getElem D1, List.getD_eq_getElem _ _ D1]
      rw [offset_of_hit s1 l (o - s1.lines.getD l 0) (s1.lines.getD l 0) hsome]
      show Except.ok (s1.lines.getD l 0 + (o - s1.lines.getD l 0)) = Except.ok o
      rw [Nat.add_sub_cancel' D2]

theorem claim_C3_round_trip_witness :
    (0 : Nat) < 1 ∧ (2 : Nat) < ([97, 10, 98] : List Nat).length ∧
      ∃ (l c : Nat) (s' : Stream),
        (Stream.new [97, 10, 98] 1).line_index 2 = (Except.ok ⟨l, c⟩, s') ∧
        (s'.offset_of l c).1 = Except.ok 2 :=
  ⟨by decide, by decide, claim_C3_round_trip [97, 10, 98] 1 2 (by decide) (by decide)⟩

/-- Claim C4 (counterexample): the claim states `position_of` fails
exactly when the offset is at or beyond the true end of the source, but on
the empty source (length 0) the offset 0 — which is at the end — succeeds
and resolves to `(0, 0)`, because the binary search answers interval 0 for
target 0 unconditionally. -/
theorem claim_C4_counterexample :
    ([] : List Nat).length ≤ 0 ∧
      ((Stream.new ([] : List Nat) 1).line_index 0).1 = Except.ok ⟨0, 0⟩ := by
  refine ⟨by decide, ?_⟩
  simp [Stream.line_index, Stream.line_of, lineOfLoop, binary_search_between,
    Stream.new]

/-- Claim C4 (amended): for every positive buffer size, `position_of o`
succeeds iff `o` is strictly inside the source or `o = 0` (offset 0
always resolves, even at or beyond the end of an empty source); every
nonzero offset at or beyond the true end fails with the out-of-range
error. -/
theorem claim_C4_offset_range (src : List Nat) (bs o : Nat) (hbs : 0 < bs) :
    ((∃ p s', (Stream.new src bs).line_index o = (Except.ok p, s')) ↔
      (o < src.length ∨ o = 0)) ∧
    (src.length ≤ o → o ≠ 0 →
      ((Stream.new src bs).line_index o).1 =
        Except.error "Invalid offset, exceed EOF") := by
  cases hr : lineOfLoop (Stream.new src bs) o 0 with
  | mk res s1 =>
    have H := lineOfLoop_spec src.length (Stream.new src bs) o 0
      (by simp [Stream.new]) (Inv_new src bs) (by simp [Stream.new])
      (by simp [Stream.new]) res s1 hr
    cases res with
    | ok l =>
      obtain ⟨_, _, D3⟩ := H.2.2.2.2.1 l rfl
      simp only [Stream.new] at D3
      have hline : (Stream.new src bs).line_index o
          = (Except.ok ⟨l, o - s1.lines.getD l 0⟩, s1) := by
        rw [Stream.line_index, Stream.line_of, hr]
      constructor
      · constructor
        · intro _
          rcases D3 with h | h
          · exact Or.inr h
          · exact Or.inl (by simpa using h)
        · intro _
          exact ⟨⟨l, o - s1.lines.getD l 0⟩, s1, hline⟩
      · intro h1 h2
        rcases D3 with h | h
        · exact absurd h h2
        · simp at h
          omega
    | error msg =>
      obtain ⟨E1, E2, E3, E4⟩ := H.2.2.2.2.2 msg rfl
      have h1 := H.2.2.1
      have h2 : s1.reader = [] := E4 (by simpa [Stream.new] using hbs)
      rw [h2] at h1
      simp [Stream.new] at h1
      have hline : (Stream.new src bs).line_index o = (Except.error msg, s1) := by
        rw [Stream.line_index, Stream.line_of, hr]
      constructor
      · constructor
        · rintro ⟨p, s', hp⟩
          rw [hline] at hp
          exact absurd hp (by simp)
        · intro hc
          omega
      · intro _ _
        rw [hline, E1]

theorem claim_C4_offset_range_witness :
    (0 : Nat) < 2 ∧
      (((∃ p s', (Stream.new [10, 97] 2).line_index 3 = (Except.ok p, s')) ↔
        ((3 : Nat) < ([10, 97] : List Nat).length ∨ (3 : Nat) = 0)) ∧
      (([10, 97] : List Nat).length ≤ 3 → (3 : Nat) ≠ 0 →
        ((Stream.new [10, 97] 2).line_index 3).1 =
          Except.error "Invalid offset, exceed EOF")) :=
  ⟨by decide, claim_C4_offset_range [10, 97] 2 3 (by decide)⟩

/-- Claim C5 (confirmed): whenever the requested line is already a valid
index into the line-start table, `offset_of` returns `lines[line] + col`
for every column — no bound on `col` is checked. -/
theorem claim_C5_no_column_check (s : Stream) (line col off : Nat)
    (h : s.lines[line]? = some off) :
    (s.offset_of line col).1 = Except.ok (off + col) := by
  rw [offset_of_hit s line col off h]

theorem claim_C5_no_column_check_witness :
    (Stream.new ([] : List Nat) 1).lines[0]? = some 0 ∧
      ((Stream.new ([] : List Nat) 1).offset_of 0 99).1 = Except.ok (0 + 99) :=
  ⟨rfl, claim_C5_no_column_check (Stream.new [] 1) 0 99 0 rfl⟩

/-- Claim C6 (confirmed): `offset_of` succeeds exactly when the requested
line index is a valid index into the fully populated line-start table
(the table after exhausting the source), and otherwise fails with the
invalid-line-index error — never a clamped or wrapped value. -/
theorem claim_C6_invalid_line (src : List Nat) (bs line col : Nat) :
    ((∃ v s', (Stream.new src bs).offset_of line col = (Except.ok v, s')) ↔
      line < ((Stream.new src bs).drain).lines.length) ∧
    (¬ line < ((Stream.new src bs).drain).lines.length →
      ((Stream.new src bs).offset_of line col).1 =
        Except.error (invalidLineMsg line col)) := by
  cases hr : (Stream.new src bs).offset_of line col with
  | mk res s' =>
    obtain ⟨_, _, hcase⟩ := offset_of_spec (Stream.new src bs).reader.length
      (Stream.new src bs) line col (Nat.le_refl _) res s' hr
    rcases hcase with ⟨he, hnl⟩ | ⟨v, hv, hl⟩
    · subst he
      constructor
      · constructor
        · rintro ⟨v, s'', hv⟩
          exact absurd hv (by simp)
        · intro hc
          exact absurd hc hnl
      · intro _
        rfl
    · subst hv
      constructor
      · exact ⟨fun _ => hl, fun _ => ⟨v, s', rfl⟩⟩
      · intro hc
        exact absurd hl hc

theorem claim_C6_invalid_line_witness :
    ((∃ v s', (Stream.new [10, 97] 1).offset_of 5 0 = (Except.ok v, s')) ↔
      5 < ((Stream.new [10, 97] 1).drain).lines.length) ∧
    (¬ 5 < ((Stream.new [10, 97] 1).drain).lines.length →
      ((Stream.new [10, 97] 1).offset_of 5 0).1 =
        Except.error (invalidLineMsg 5 0)) :=
  claim_C6_invalid_line [10, 97] 1 5 0

/-- Claim C7 (confirmed): after construction the table is `[0]`, and each
operation — `forward`, `line_index`, `offset_of`, `drain` — leaves a table
that still starts with 0, is strictly increasing, and extends the previous
table (append-only), whether the operation succeeds or fails. -/
theorem claim_C7_table_invariants (src : List Nat) (bs : Nat) (s : Stream)
    (h : Inv s) (o line col : Nat) :
    (Stream.new src bs).lines = [0] ∧ TableOk (Stream.new src bs) ∧
    TableOk (s.forward).2 ∧ (∃ t, (s.forward).2.lines = s.lines ++ t) ∧
    TableOk (s.line_index o).2 ∧ (∃ t, (s.line_index o).2.lines = s.lines ++ t) ∧
    TableOk (s.offset_of line col).2 ∧
    (∃ t, (s.offset_of line col).2.lines = s.lines ++ t) ∧
    TableOk s.drain ∧ (∃ t, s.drain.lines = s.lines ++ t) := by
  have hlen : 0 < s.lines.length := List.length_pos.mpr h.1
  have HL := lineOfLoop_spec s.reader.length s o 0 (Nat.le_refl _) h hlen
    (by rw [h.2.1]; exact Nat.zero_le o) (lineOfLoop s o 0).1 (lineOfLoop s o 0).2
    rfl
  have HO := offset_of_spec s.reader.length s line col (Nat.le_refl _)
    (s.offset_of line col).1 (s.offset_of line col).2 rfl
  have HD := drain_spec s.reader.length s (Nat.le_refl _)
  refine ⟨rfl, ⟨rfl, by simp [Stream.new]⟩, TableOk_of_Inv (Inv_forward h),
    ⟨nlOffsets s.next_offset (s.reader.take s.bufferSize), forward_lines s⟩,
    ?_, ?_, TableOk_of_Inv (HO.2.1 h), HO.1, TableOk_of_Inv (HD.2 h), HD.1⟩
  · rw [line_index_snd]
    exact TableOk_of_Inv HL.1
  · rw [line_index_snd]
    exact HL.2.1

theorem claim_C7_table_invariants_witness :
    Inv (Stream.new [10, 97] 2) ∧
      (TableOk ((Stream.new [10, 97] 2).forward).2 ∧
        ∃ t, ((Stream.new [10, 97] 2).forward).2.lines
          = (Stream.new [10, 97] 2).lines ++ t) := by
  have H := claim_C7_table_invariants [] 1 (Stream.new [10, 97] 2)
    (by decide) 0 0 0
  exact ⟨by decide, H.2.2.1, H.2.2.2.1⟩

/-- Claim C8 (confirmed): once a scan step returns 0 it has not changed
the state, and every later scan step returns 0 on the same unchanged
state: exhaustion is terminal and idempotent. -/
theorem claim_C8_exhaustion_idempotent (s : Stream) (h : (s.forward).1 = 0) :
    s.forward = (0, s) ∧ ∀ m, (fun t : Stream => (t.forward).2)^[m] s = s := by
  have h2 := forward_zero s h
  have hfix : s.forward = (0, s) := by
    have : s.forward = ((s.forward).1, (s.forward).2) := rfl
    rw [this, h, h2]
  refine ⟨hfix, ?_⟩
  intro m
  induction m with
  | zero => rfl
  | succ m ih =>
    rw [Function.iterate_succ_apply', ih]
    show (s.forward).2 = s
    exact h2

theorem claim_C8_exhaustion_idempotent_witness :
    ((Stream.new ([] : List Nat) 4).forward).1 = 0 ∧
      (Stream.new ([] : List Nat) 4).forward = (0, Stream.new ([] : List Nat) 4) ∧
      ∀ m, (fun t : Stream => (t.forward).2)^[m] (Stream.new ([] : List Nat) 4)
        = Stream.new ([] : List Nat) 4 :=
  ⟨by decide, (claim_C8_exhaustion_idempotent _ (by decide)).1,
    (claim_C8_exhaustion_idempotent _ (by decide)).2⟩

/-- Claim C9 (confirmed): the one-based conversion of any zero-based
position is exactly `(line + 1, column + 1)` with both components strictly
positive, and a one-based position with a zero line or column cannot be
constructed: `OneBased.new` fails on it. -/
theorem claim_C9_one_based_strictly_positive :
    (∀ l c : Nat, (ZeroBased.one_based ⟨l, c⟩).raw = (l + 1, c + 1) ∧
      0 < (ZeroBased.one_based ⟨l, c⟩).line.val ∧
      0 < (ZeroBased.one_based ⟨l, c⟩).column.val) ∧
    (∀ c : Nat, OneBased.new 0 c = none) ∧
    (∀ l : Nat, OneBased.new l 0 = none) := by
  refine ⟨fun l c => ⟨rfl, Nat.succ_pos _, Nat.succ_pos _⟩, ?_, ?_⟩
  · intro c
    simp [OneBased.new, NonZeroUsize.new]
  · intro l
    simp [OneBased.new, NonZeroUsize.new]

/-- Claim C10 (confirmed): when the requested line is already in the
line-start table, `offset_of` leaves the entire stream state — table,
cursor and remaining reader — unchanged; in particular `offset_of (0, 0)`
on a fresh stream over any source returns offset 0 without consuming any
input. -/
theorem claim_C10_offset_of_frame (src : List Nat) (bs : Nat) (s : Stream)
    (line col : Nat) (h : line < s.lines.length) :
    (s.offset_of line col).2 = s ∧
      (Stream.new src bs).offset_of 0 0 = (Except.ok 0, Stream.new src bs) := by
  constructor
  · have hsome : s.lines[line]? = some s.lines[line] := List.getElem?_eq_getElem h
    rw [offset_of_hit s line col _ hsome]
  · have h0 : (Stream.new src bs).lines[0]? = some 0 := rfl
    rw [offset_of_hit _ 0 0 0 h0]

theorem claim_C10_offset_of_frame_witness :
    (0 : Nat) < (Stream.new [97, 10] 3).lines.length ∧
      ((Stream.new [97, 10] 3).offset_of 0 7).2 = Stream.new [97, 10] 3 ∧
      (Stream.new [10, 10] 9).offset_of 0 0
        = (Except.ok 0, Stream.new [10, 10] 9) :=
  ⟨by decide,
    (claim_C10_offset_of_frame [10, 10] 9 (Stream.new [97, 10] 3) 0 7 (by decide)).1,
    (claim_C10_offset_of_frame [10, 10] 9 (Stream.new [97, 10] 3) 0 7 (by decide)).2⟩

end StreamLocate
